import Mathlib

/-!
Verification development for the argon report-ingestion core (src/dv.js).

The shallow embedding below translates the four core pieces of dv.js:

* convertDate       — global regex rewrite of slash dates YYYY/MM/DD to dashes;
* CSVExtractor      — the three-state streaming line classifier (_transform);
* getReports        — the lookback-bounded report-set resolver;
* getReportName     — first-DONE locator plus extractFilename (GCS_URL_PATTERN).

Strings are handled through their underlying character lists; machine
integers (millisecond timestamps) are modelled as Int with exact arithmetic.
-/

/-! ## DateRewriter: convertDate (dv.js lines 32-36) -/

/-- One attempt of the regex DATE_PATTERN = (\d{4})/(\d{2})/(\d{2}) at the
head of the character list.  On success returns the replacement text
($1-$2-$3) together with the characters after the match; the regex has
fixed-width pieces, so there is no backtracking inside one attempt. -/
def dateAt : List Char → Option (List Char × List Char)
  | a :: b :: c :: d :: s1 :: e :: f :: s2 :: g :: h :: rest =>
    if s1 = '/' ∧ s2 = '/' ∧ a.isDigit = true ∧ b.isDigit = true ∧ c.isDigit = true ∧
        d.isDigit = true ∧ e.isDigit = true ∧ f.isDigit = true ∧ g.isDigit = true ∧
        h.isDigit = true then
      some ([a, b, c, d, '-', e, f, '-', g, h], rest)
    else
      none
  | _ => none

/-- Global replacement scan of line.replace(new RegExp(DATE_PATTERN, 'g'), ...):
at each position try the pattern; on a match emit the replacement and resume
after the matched text, otherwise emit one character and advance.  The fuel
argument (instantiated with the list length) only serves termination; each
step consumes at least one character. -/
def convertDateAux : Nat → List Char → List Char
  | 0, l => l
  | _ + 1, [] => []
  | n + 1, x :: rest =>
    match dateAt (x :: rest) with
    | some (rep, rest2) => rep ++ convertDateAux n rest2
    | none => x :: convertDateAux n rest

/-- convertDate from dv.js: rewrite every occurrence of YYYY/MM/DD to
YYYY-MM-DD, scanning left to right. -/
def convertDate (line : String) : String :=
  ⟨convertDateAux line.data.length line.data⟩

/-! ## CSVExtractor._transform (dv.js lines 123-150) -/

/-- JS String.prototype.split(',') on the header chunk: split at every comma,
keeping empty pieces. -/
def splitFields : List Char → List (List Char)
  | [] => [[]]
  | ',' :: rest => [] :: splitFields rest
  | c :: rest =>
    match splitFields rest with
    | [] => [[c]]
    | p :: ps => (c :: p) :: ps

/-- Observable events of one _transform call: the field-name handoff
(handleFields), a transformed data line (pushLine), or the end-of-stream
signal (push(null)). -/
inductive Ev where
  | fields : List String → Ev
  | line : String → Ev
  | eos : Ev
deriving DecidableEq, Repr

/-- The two booleans of CSVExtractor; both start false. -/
structure CState where
  csvFound : Bool
  summaryFound : Bool
deriving DecidableEq, Repr

/-- The summary-boundary test of _transform:
line.length === 0 || line[0] === ','. -/
def isBoundary (chunk : String) : Bool :=
  chunk.data.isEmpty || chunk.data.head? = some ','

/-- One _transform call: the branch structure of dv.js lines 130-149,
returning the successor state and the events emitted during the call. -/
def stepC (st : CState) (chunk : String) : CState × List Ev :=
  if st.csvFound then
    if isBoundary chunk then
      ({ csvFound := false, summaryFound := true }, [])
    else
      (st, [Ev.line (convertDate chunk)])
  else if st.summaryFound then
    (st, [Ev.eos])
  else
    ({ st with csvFound := true }, [Ev.fields ((splitFields chunk.data).map fun cs => ⟨cs⟩)])

/-- Feed a chunk sequence through _transform from a given state; one event
list per chunk, in arrival order. -/
def runC : CState → List String → List (List Ev)
  | _, [] => []
  | st, c :: cs => (stepC st c).2 :: runC (stepC st c).1 cs

/-- Events of a fresh CSVExtractor (csvFound = summaryFound = false) on a
chunk sequence. -/
def chunkEvents (chunks : List String) : List (List Ev) :=
  runC ⟨false, false⟩ chunks

/-- The state before each chunk and after the last one. -/
def stateTrace : CState → List String → List CState
  | st, [] => [st]
  | st, c :: cs => st :: stateTrace (stepC st c).1 cs

/-- State after consuming a chunk sequence. -/
def endState (st : CState) (chunks : List String) : CState :=
  chunks.foldl (fun s c => (stepC s c).1) st

/-! ## ReportSetResolver: getReports (dv.js lines 75-121) -/

/-- The fields of one metadata record that getReports and getReportName
consult: report.metadata.status.state, the parsed
report.metadata.reportDataEndTimeMs, report.metadata.googleCloudStoragePath
and report.key.reportId. -/
structure ReportRecord where
  state : String
  endTimeMs : Int
  storagePath : String
  reportId : String
deriving DecidableEq, Repr

/-- One value of the result map: {url: ..., file: ...}. -/
structure ReportFile where
  url : String
  file : String
deriving DecidableEq, Repr

/-- The mutable scan state of the getReports loop: the reports object being
built, the contents of the callers requiredDates Set, and latestDate. -/
structure ScanState where
  reports : List (String × ReportFile)
  required : List String
  latest : Option Int
deriving DecidableEq, Repr

/-- The first stop condition of dv.js line 111, requiredDates.length === 0.
requiredDates is a JS Set, which has a size property but no length property,
so requiredDates.length evaluates to undefined and the strict comparison
undefined === 0 is false on every call.  The definition records that the
condition can never fire. -/
def jsSetLengthIsZero (_required : List String) : Bool := false

/-- Milliseconds per day, the unit behind luxon diff(...).as('days'). -/
def msPerDay : Int := 86400000

/-- today.diff(latestDate).as('days') > lookbackDays, the third stop
condition, with the real-number comparison scaled exactly to integer
milliseconds (lookbackDays is a whole number of days). -/
def exceedsLookback (today lookbackDays ts : Int) : Bool :=
  decide (today - ts > lookbackDays * msPerDay)

/-- The stop-condition block at the bottom of the loop body (dv.js lines
111-117), checked in source order after each record. -/
def stopCheck (today lookbackDays : Int) (st : ScanState) : Bool :=
  if jsSetLengthIsZero st.required then true
  else
    match st.latest with
    | none => true
    | some ts => exceedsLookback today lookbackDays ts

/-- JS object assignment reports[reportDate] = {...}: overwrite the entry if
the key exists, otherwise append it. -/
def putEntry : List (String × ReportFile) → String → ReportFile → List (String × ReportFile)
  | [], k, v => [(k, v)]
  | (k2, v2) :: rest, k, v =>
    if k2 = k then (k, v) :: rest else (k2, v2) :: putEntry rest k v

/-- The body of the for-of loop for one record (dv.js lines 97-109):
records whose state is not DONE are skipped; for a DONE record the date key
is formatted from the timestamp, requiredDates.delete(reportDate) removes the
key and reports (if it was present) the match, and latestDate is updated. -/
def processRecord (fmt : Int → String) (r : ReportRecord) (st : ScanState) : ScanState :=
  if r.state = "DONE" then
    let date := fmt r.endTimeMs
    if st.required.contains date then
      { reports := putEntry st.reports date ⟨r.storagePath, r.reportId⟩
        required := st.required.erase date
        latest := some r.endTimeMs }
    else
      { st with latest := some r.endTimeMs }
  else
    st

/-- The whole for-of loop: process each record then evaluate the stop block;
the boolean reports whether the loop ended through a break. -/
def scanLoop (today lookbackDays : Int) (fmt : Int → String) :
    List ReportRecord → ScanState → ScanState × Bool
  | [], st => (st, false)
  | r :: rs, st =>
    let st2 := processRecord fmt r st
    if stopCheck today lookbackDays st2 then (st2, true)
    else scanLoop today lookbackDays fmt rs st2

/-- Number of loop iterations (records inspected) before the loop ends, for
the same traversal as scanLoop. -/
def scanCount (today lookbackDays : Int) (fmt : Int → String) :
    List ReportRecord → ScanState → Nat
  | [], _ => 0
  | r :: rs, st =>
    let st2 := processRecord fmt r st
    if stopCheck today lookbackDays st2 then 1
    else 1 + scanCount today lookbackDays fmt rs st2

/-- Scan state at entry of the loop: reports = {}, the callers set, and
latestDate = null. -/
def initState (required : List String) : ScanState := ⟨[], required, none⟩

/-- getReports, with the HTTP fetch abstracted into the record list argument
and the luxon date formatting into fmt (the dateFormat rule applied to the
timestamp).  Returns the result map together with the final contents of the
callers requiredDates Set, which the source mutates in place; the empty-
response guard becomes the error case. -/
def getReports (today lookbackDays : Int) (fmt : Int → String)
    (reportList : List ReportRecord) (requiredDates : List String) :
    Except String (List (String × ReportFile) × List String) :=
  if reportList.isEmpty then
    Except.error "Invalid or empty API response."
  else
    let st := (scanLoop today lookbackDays fmt reportList (initState requiredDates)).1
    Except.ok (st.reports, st.required)

/-! ## StorageLocationParser: extractFilename (dv.js lines 31, 38-44)

GCS_URL_PATTERN = (.*)\/(?<filename>.*)_(.*)_(.*)_(.*)_(.*)\.csv\?(.*) is a
fixed sequence of greedy dot-stars separated by literals, executed with
standard backtracking and, if the attempt at one start position fails,
retried from the next position (RegExp.prototype.exec without anchors). -/

/-- A character the regex metacharacter dot matches: anything except the
JS line terminators. -/
def isDotChar (c : Char) : Bool :=
  !(c = '\n' || c = '\r' || c = '\u2028' || c = '\u2029')

/-- Length of the longest prefix consisting of dot-matchable characters:
the most a greedy dot-star can consume. -/
def dotRun : List Char → Nat
  | [] => 0
  | c :: rest => if isDotChar c then dotRun rest + 1 else 0

/-- Match a literal piece of the pattern at the front of the input. -/
def stripLit : List Char → List Char → Option (List Char)
  | [], l => some l
  | _ :: _, [] => none
  | c :: cs, x :: xs => if x = c then stripLit cs xs else none

/-- Backtracking order of a greedy star: try the longest candidate first,
then shorter ones down to the empty match. -/
def tryDown (k : Nat → Option α) : Nat → Option α
  | 0 => k 0
  | n + 1 =>
    match k (n + 1) with
    | some r => some r
    | none => tryDown k n

/-- Match a chain  dot-star lit1 dot-star lit2 ... litN  against the input,
each star greedy with backtracking; returns the list of captured star
segments and whatever input remains after the last literal. -/
def matchSegs : List (List Char) → List Char → Option (List (List Char) × List Char)
  | [], l => some ([], l)
  | lit :: lits, l =>
    tryDown
      (fun i =>
        match stripLit lit (l.drop i) with
        | none => none
        | some rest =>
          match matchSegs lits rest with
          | none => none
          | some (segs, rem) => some ((l.take i) :: segs, rem))
      (dotRun l)

/-- The literals of GCS_URL_PATTERN between the captured groups. -/
def gcsLits : List (List Char) := [['/'], ['_'], ['_'], ['_'], ['_'], ['.', 'c', 's', 'v', '?']]

/-- exec: attempt the pattern at position 0, then at each later start
position until a match is found. -/
def gcsExecAux : List Char → Option (List (List Char) × List Char)
  | [] => matchSegs gcsLits []
  | c :: rest =>
    match matchSegs gcsLits (c :: rest) with
    | some r => some r
    | none => gcsExecAux rest

/-- The named group filename of GCS_URL_PATTERN: the second captured
dot-star, when the pattern matches. -/
def gcsMatch (url : List Char) : Option (List Char) :=
  match gcsExecAux url with
  | some (segs, _) => segs.get? 1
  | none => none

/-- extractFilename from dv.js: throw when the pattern does not match or
when the captured filename group is the empty string (an empty string is
falsy, so !match.groups.filename also throws). -/
def extractFilename (url : String) : Except String String :=
  match gcsMatch url.data with
  | none => Except.error "Unable to extract filename from URL."
  | some f =>
    if f.isEmpty then Except.error "Unable to extract filename from URL."
    else Except.ok ⟨f⟩

/-! ## ReportLocator: getReportName (dv.js lines 54-73) -/

/-- The search loop of getReportName: fileUrl starts as the empty string and
receives the storage path of the first record in state DONE, if any. -/
def firstDoneUrl : List ReportRecord → String
  | [] => ""
  | r :: rs => if r.state = "DONE" then r.storagePath else firstDoneUrl rs

/-- getReportName with the HTTP fetch abstracted into the record list: the
empty-response guard, the first-DONE search, then extractFilename on the
resulting URL (or on the empty-string sentinel). -/
def getReportName (reportList : List ReportRecord) : Except String String :=
  if reportList.isEmpty then
    Except.error "Invalid or empty API response."
  else
    extractFilename (firstDoneUrl reportList)

/-! ## Declarative shape of GCS_URL_PATTERN -/

/-- A segment a dot-star can capture: no line terminators. -/
def DotFreeL (l : List Char) : Prop := ∀ c ∈ l, isDotChar c = true

/-- A URL matches GCS_URL_PATTERN iff some portion of it decomposes into the
seven-segment shape prefix / filename _ seg2 _ seg3 _ seg4 _ seg5 .csv? rest.
The unanchored exec together with the leading and trailing dot-stars make
the leading and trailing context arbitrary; the five inner segments must be
free of line terminators. -/
def MatchesGcs (l : List Char) : Prop :=
  ∃ w f a b c d t, DotFreeL f ∧ DotFreeL a ∧ DotFreeL b ∧ DotFreeL c ∧ DotFreeL d ∧
    l = w ++ '/' :: (f ++ '_' :: (a ++ '_' :: (b ++ '_' :: (c ++ '_' :: (d ++ ('.' :: 'c' :: 's' :: 'v' :: '?' :: t))))))

/-! ## Helper lemmas for convertDate -/

/-- A successful date match contains a slash. -/
theorem dateAt_slash {l : List Char} {p : List Char × List Char}
    (h : dateAt l = some p) : '/' ∈ l := by
  unfold dateAt at h
  split at h
  · split at h
    · rename_i a b c d s1 e f s2 g hh rest hc
      obtain ⟨h1, -⟩ := hc
      subst h1
      simp
    · exact absurd h (by simp)
  · exact absurd h (by simp)

/-- A line without a slash is left unchanged by the replacement scan. -/
theorem convertDateAux_no_slash (n : Nat) : ∀ l : List Char, '/' ∉ l → convertDateAux n l = l := by
  induction n with
  | zero => intro l _; rfl
  | succ n ih =>
    intro l h
    cases l with
    | nil => rfl
    | cons x rest =>
      unfold convertDateAux
      cases hd : dateAt (x :: rest) with
      | some p => exact absurd (dateAt_slash hd) h
      | none =>
        simp only [hd]
        rw [ih rest (fun hm => h (List.mem_cons_of_mem _ hm))]

/-- C5 (amended): convertDate is not idempotent in general (see the
counterexample below); but a line containing no slash — in particular a line
whose dates are already in dash form — is a fixed point of convertDate, and
hence applying convertDate twice equals applying it once on such lines. -/
theorem convertDate_slash_free_fixed (line : String) (h : '/' ∉ line.data) :
    convertDate line = line ∧ convertDate (convertDate line) = convertDate line := by
  have h1 : convertDate line = line := by
    unfold convertDate
    rw [convertDateAux_no_slash _ _ h]
  exact ⟨h1, by rw [h1, h1]⟩

/-- Witness for the amended C5 at a dash-form date line. -/
theorem convertDate_slash_free_fixed_witness :
    '/' ∉ "a,2021-06-01".data ∧ convertDate "a,2021-06-01" = "a,2021-06-01" :=
  ⟨by decide, (convertDate_slash_free_fixed "a,2021-06-01" (by decide)).1⟩

/-- C5 counterexample: the first rewrite of 1234/56/7890/12/34 converts only
the leftmost date, leaving 7890/12/34 intact (the regex resumes after the
consumed text), and the second application converts that remainder, so twice
differs from once. -/
theorem convertDate_not_idempotent :
    convertDate (convertDate "1234/56/7890/12/34") ≠ convertDate "1234/56/7890/12/34" := by
  decide

/-- C6: the worked stream example: header chunk, one data chunk with a
slash date, the blank summary boundary, then a trailing chunk that only
produces the end-of-stream signal and is never emitted as data. -/
theorem csvExtractor_example :
    chunkEvents ["name,val", "a,2021/06/01", "", "total,5"] =
      [[Ev.fields ["name", "val"]], [Ev.line "a,2021-06-01"], [], [Ev.eos]] := by
  decide

/-! ## getReports: termination facts -/

/-- C7: with no DONE record in a (nonempty) listing, the scan returns an
empty result map and stops at the very first stop check: the first record is
skipped, latestDate is still null, and the null check breaks the loop after
one iteration. -/
theorem getReports_no_done (today lb : Int) (fmt : Int → String)
    (l : List ReportRecord) (req : List String) (hne : l ≠ [])
    (h : ∀ r ∈ l, r.state ≠ "DONE") :
    getReports today lb fmt l req = Except.ok ([], req) ∧
      scanCount today lb fmt l (initState req) = 1 := by
  cases l with
  | nil => exact absurd rfl hne
  | cons r rs =>
    have hr : r.state ≠ "DONE" := h r (List.mem_cons_self r rs)
    constructor
    · simp [getReports, scanLoop, processRecord, stopCheck, jsSetLengthIsZero, initState, hr]
    · simp [scanCount, processRecord, stopCheck, jsSetLengthIsZero, initState, hr]

/-- Witness for C7 at a one-record PROCESSING listing. -/
theorem getReports_no_done_witness :
    getReports 864000000 7 (fun _ => "d") [⟨"PROCESSING", 0, "u", "f"⟩] ["x"] =
        Except.ok ([], ["x"]) ∧
      scanCount 864000000 7 (fun _ => "d") [⟨"PROCESSING", 0, "u", "f"⟩] (initState ["x"]) = 1 :=
  getReports_no_done 864000000 7 (fun _ => "d") [⟨"PROCESSING", 0, "u", "f"⟩] ["x"]
    (by simp) (by decide)

/-- C1: evaluation of getReports at a listing that violates the set-drain
claim.  With required dates {d1}, the first DONE record (one day old)
resolves d1 and empties the required-date set, yet the loop also processes
the second record: the drained-set stop compares requiredDates.length
(undefined on a JS Set, which only has size) against 0, so it never fires
and the scan runs on until the lookback check or the end of the list. -/
theorem getReports_scan_continues_after_drain :
    (processRecord (fun ts => if ts = 777600000 then "d1" else "d2")
        ⟨"DONE", 777600000, "u1", "f1"⟩ (initState ["d1"])).required = [] ∧
      scanCount 864000000 7 (fun ts => if ts = 777600000 then "d1" else "d2")
        [⟨"DONE", 777600000, "u1", "f1"⟩, ⟨"DONE", 691200000, "u2", "f2"⟩]
        (initState ["d1"]) = 2 := by
  decide

/-! ## getReportName -/

/-- The search loop leaves the empty-string sentinel when no record is in
state DONE. -/
theorem firstDoneUrl_no_done (l : List ReportRecord) (h : ∀ r ∈ l, r.state ≠ "DONE") :
    firstDoneUrl l = "" := by
  induction l with
  | nil => rfl
  | cons r rs ih =>
    unfold firstDoneUrl
    rw [if_neg (h r (List.mem_cons_self r rs))]
    exact ih fun x hx => h x (List.mem_cons_of_mem _ hx)

/-- C10: when the (nonempty) listing has no DONE record, getReportName
passes the empty-string sentinel to extractFilename, which cannot match it
and throws. -/
theorem getReportName_no_done (l : List ReportRecord) (hne : l ≠ [])
    (h : ∀ r ∈ l, r.state ≠ "DONE") :
    getReportName l = Except.error "Unable to extract filename from URL." := by
  cases l with
  | nil => exact absurd rfl hne
  | cons r rs =>
    unfold getReportName
    rw [if_neg (by simp), firstDoneUrl_no_done _ h]
    rfl

/-- Witness for C10 at a one-record RUNNING listing. -/
theorem getReportName_no_done_witness :
    getReportName [⟨"RUNNING", 0, "u", "f"⟩] =
      Except.error "Unable to extract filename from URL." :=
  getReportName_no_done [⟨"RUNNING", 0, "u", "f"⟩] (by simp) (by decide)

/-! ## getReports: loop composition -/

/-- The scan over a concatenation: if the break fired inside the first part
the second part is never reached, otherwise the scan continues from the
state the first part produced. -/
theorem scanLoop_append (today lb : Int) (fmt : Int → String)
    (l1 l2 : List ReportRecord) (st : ScanState) :
    scanLoop today lb fmt (l1 ++ l2) st =
      if (scanLoop today lb fmt l1 st).2 then scanLoop today lb fmt l1 st
      else scanLoop today lb fmt l2 (scanLoop today lb fmt l1 st).1 := by
  induction l1 generalizing st with
  | nil => simp [scanLoop]
  | cons r rs ih =>
    simp only [List.cons_append, scanLoop]
    cases hs : stopCheck today lb (processRecord fmt r st) with
    | true => simp [hs]
    | false => simp [hs, ih]

/-- If the scan ran through a nonempty list without breaking, the stop block
evaluated to false on the state it ended in. -/
theorem scanLoop_stop_false (today lb : Int) (fmt : Int → String)
    (l : List ReportRecord) (st : ScanState) (hne : l ≠ [])
    (h : (scanLoop today lb fmt l st).2 = false) :
    stopCheck today lb (scanLoop today lb fmt l st).1 = false := by
  induction l generalizing st with
  | nil => exact absurd rfl hne
  | cons r rs ih =>
    simp only [scanLoop] at h ⊢
    cases hs : stopCheck today lb (processRecord fmt r st) with
    | true => simp [hs] at h
    | false =>
      simp only [hs, if_false, Bool.false_eq_true] at h ⊢
      cases rs with
      | nil =>
        simp only [scanLoop]
        exact hs
      | cons r2 rs2 => exact ih _ (List.cons_ne_nil r2 rs2) h

/-- C3 (amended): a record whose state is not DONE is inert to the scan
provided it is not the very first record: inserting (or removing) such a
record anywhere after the first position leaves the returned result map and
the final required-date set unchanged.  (At the head of the listing the
claim fails: a leading non-DONE record fires the latestDate-null stop check
and aborts the whole scan, as the counterexample below shows.) -/
theorem getReports_nonDone_inert (today lb : Int) (fmt : Int → String)
    (l1 l2 : List ReportRecord) (r : ReportRecord) (req : List String)
    (h1 : l1 ≠ []) (hr : r.state ≠ "DONE") :
    getReports today lb fmt (l1 ++ r :: l2) req = getReports today lb fmt (l1 ++ l2) req := by
  have hne1 : (l1 ++ r :: l2).isEmpty = false := by
    cases l1 with
    | nil => exact absurd rfl h1
    | cons x xs => rfl
  have hne2 : (l1 ++ l2).isEmpty = false := by
    cases l1 with
    | nil => exact absurd rfl h1
    | cons x xs => rfl
  unfold getReports
  rw [hne1, hne2]
  simp only [Bool.false_eq_true, if_false]
  rw [scanLoop_append, scanLoop_append]
  cases hb : (scanLoop today lb fmt l1 (initState req)).2 with
  | true => simp [hb]
  | false =>
    simp only [hb, Bool.false_eq_true, if_false]
    have hst : stopCheck today lb (scanLoop today lb fmt l1 (initState req)).1 = false :=
      scanLoop_stop_false today lb fmt l1 (initState req) h1 hb
    simp only [scanLoop, processRecord, if_neg hr, hst, Bool.false_eq_true, if_false]

/-- Witness for the amended C3: a PROCESSING record after the first DONE
record changes nothing. -/
theorem getReports_nonDone_inert_witness :
    getReports 864000000 7 (fun ts => if ts = 777600000 then "d1" else "d2")
        [⟨"DONE", 777600000, "u1", "f1"⟩, ⟨"PROCESSING", 1, "u0", "f0"⟩] ["d1"] =
      getReports 864000000 7 (fun ts => if ts = 777600000 then "d1" else "d2")
        [⟨"DONE", 777600000, "u1", "f1"⟩] ["d1"] :=
  getReports_nonDone_inert 864000000 7 (fun ts => if ts = 777600000 then "d1" else "d2")
    [⟨"DONE", 777600000, "u1", "f1"⟩] [] ⟨"PROCESSING", 1, "u0", "f0"⟩ ["d1"]
    (by simp) (by decide)

/-- C3 counterexample: a non-DONE record at the head of the listing is not
inert.  With it present the first stop check fires while latestDate is still
null and the scan returns an empty map; removing it lets the DONE record
resolve the required date. -/
theorem getReports_nonDone_not_inert :
    getReports 864000000 7 (fun ts => if ts = 777600000 then "d1" else "d2")
        [⟨"PROCESSING", 850000000, "u0", "f0"⟩, ⟨"DONE", 777600000, "u1", "f1"⟩] ["d1"] =
      Except.ok ([], ["d1"]) ∧
    getReports 864000000 7 (fun ts => if ts = 777600000 then "d1" else "d2")
        [⟨"DONE", 777600000, "u1", "f1"⟩] ["d1"] =
      Except.ok ([("d1", ⟨"u1", "f1"⟩)], []) :=
  ⟨rfl, rfl⟩

/-! ## getReports: lookback monotonicity -/

/-- Scan-state invariant: the required-date set stays duplicate-free (it
models a JS Set) and every key already recorded in the result map has been
deleted from the required-date set. -/
def ScanInv (st : ScanState) : Prop :=
  st.required.Nodup ∧ ∀ p ∈ st.reports, p.1 ∉ st.required

/-- Writing a fresh key appends the entry. -/
theorem putEntry_eq_append (m : List (String × ReportFile)) (k : String) (v : ReportFile)
    (h : ∀ p ∈ m, p.1 ≠ k) : putEntry m k v = m ++ [(k, v)] := by
  induction m with
  | nil => rfl
  | cons q m ih =>
    unfold putEntry
    rw [if_neg (h q (List.mem_cons_self q m))]
    rw [ih fun p hp => h p (List.mem_cons_of_mem _ hp)]
    rfl

/-- One loop-body step preserves the invariant. -/
theorem processRecord_inv (fmt : Int → String) (r : ReportRecord) (st : ScanState)
    (h : ScanInv st) : ScanInv (processRecord fmt r st) := by
  obtain ⟨hnd, hkeys⟩ := h
  unfold processRecord
  split
  · set date := fmt r.endTimeMs with hdate
    by_cases hc : st.required.contains date
    · rw [if_pos hc]
      refine ⟨hnd.erase date, ?_⟩
      intro p hp
      have hcm : date ∈ st.required := by simpa using hc
      have hfresh : ∀ q ∈ st.reports, q.1 ≠ date := by
        intro q hq hqd
        exact hkeys q hq (hqd ▸ hcm)
      rw [putEntry_eq_append st.reports date _ hfresh] at hp
      rcases List.mem_append.mp hp with hp | hp
      · exact fun hmem => hkeys p hp (List.mem_of_mem_erase hmem)
      · have : p = (date, ⟨r.storagePath, r.reportId⟩) := by simpa using hp
        subst this
        intro hmem
        exact (hnd.mem_erase_iff.mp hmem).1 rfl
    · rw [if_neg hc]
      exact ⟨hnd, hkeys⟩
  · exact ⟨hnd, hkeys⟩

/-- One loop-body step never removes a map entry. -/
theorem processRecord_mem (fmt : Int → String) (r : ReportRecord) (st : ScanState)
    (h : ScanInv st) (p : String × ReportFile) (hp : p ∈ st.reports) :
    p ∈ (processRecord fmt r st).reports := by
  obtain ⟨hnd, hkeys⟩ := h
  unfold processRecord
  split
  · set date := fmt r.endTimeMs with hdate
    by_cases hc : st.required.contains date
    · rw [if_pos hc]
      have hcm : date ∈ st.required := by simpa using hc
      have hfresh : ∀ q ∈ st.reports, q.1 ≠ date := by
        intro q hq hqd
        exact hkeys q hq (hqd ▸ hcm)
      rw [putEntry_eq_append st.reports date _ hfresh]
      exact List.mem_append_left _ hp
    · rw [if_neg hc]
      exact hp
  · exact hp

/-- The whole scan preserves the invariant. -/
theorem scanLoop_inv (today lb : Int) (fmt : Int → String) (l : List ReportRecord)
    (st : ScanState) (h : ScanInv st) :
    ScanInv (scanLoop today lb fmt l st).1 := by
  induction l generalizing st with
  | nil => exact h
  | cons r rs ih =>
    simp only [scanLoop]
    cases hs : stopCheck today lb (processRecord fmt r st) with
    | true => simpa using processRecord_inv fmt r st h
    | false =>
      simp only [hs, Bool.false_eq_true, if_false]
      exact ih _ (processRecord_inv fmt r st h)

/-- The scan never removes a map entry. -/
theorem scanLoop_mem (today lb : Int) (fmt : Int → String) (l : List ReportRecord)
    (st : ScanState) (h : ScanInv st) (p : String × ReportFile) (hp : p ∈ st.reports) :
    p ∈ (scanLoop today lb fmt l st).1.reports := by
  induction l generalizing st with
  | nil => exact hp
  | cons r rs ih =>
    simp only [scanLoop]
    cases hs : stopCheck today lb (processRecord fmt r st) with
    | true => simpa using processRecord_mem fmt r st h p hp
    | false =>
      simp only [hs, Bool.false_eq_true, if_false]
      exact ih _ (processRecord_inv fmt r st h) (processRecord_mem fmt r st h p hp)

/-- A longer lookback window can only make the stop block fire later. -/
theorem stopCheck_mono (today d1 d2 : Int) (st : ScanState) (hd : d1 ≤ d2)
    (h : stopCheck today d2 st = true) : stopCheck today d1 st = true := by
  unfold stopCheck at h ⊢
  simp only [jsSetLengthIsZero, Bool.false_eq_true, if_false] at h ⊢
  cases hl : st.latest with
  | none => rfl
  | some ts =>
    rw [hl] at h
    unfold exceedsLookback at h ⊢
    have h2 : today - ts > d2 * msPerDay := of_decide_eq_true h
    have hms : (0 : Int) ≤ msPerDay := by norm_num [msPerDay]
    exact decide_eq_true (lt_of_le_of_lt (mul_le_mul_of_nonneg_right hd hms) h2)

/-- Every map entry produced by the scan with the smaller window is also
produced with the larger one. -/
theorem scanLoop_lookback_mono (today d1 d2 : Int) (fmt : Int → String)
    (l : List ReportRecord) (st : ScanState) (hd : d1 ≤ d2) (h : ScanInv st)
    (p : String × ReportFile) (hp : p ∈ (scanLoop today d1 fmt l st).1.reports) :
    p ∈ (scanLoop today d2 fmt l st).1.reports := by
  induction l generalizing st with
  | nil => exact hp
  | cons r rs ih =>
    simp only [scanLoop] at hp ⊢
    cases hs1 : stopCheck today d1 (processRecord fmt r st) with
    | true =>
      rw [hs1] at hp
      simp only [if_true] at hp
      cases hs2 : stopCheck today d2 (processRecord fmt r st) with
      | true => simpa using hp
      | false =>
        simp only [hs2, Bool.false_eq_true, if_false]
        exact scanLoop_mem today d2 fmt rs _ (processRecord_inv fmt r st h) p hp
    | false =>
      have hs2 : stopCheck today d2 (processRecord fmt r st) = false := by
        cases hs2 : stopCheck today d2 (processRecord fmt r st) with
        | true => rw [stopCheck_mono today d1 d2 _ hd hs2] at hs1; exact absurd hs1 (by simp)
        | false => rfl
      rw [hs1] at hp
      simp only [Bool.false_eq_true, if_false] at hp
      simp only [hs2, Bool.false_eq_true, if_false]
      exact ih _ (processRecord_inv fmt r st h) hp

/-- C4: lookback monotonicity.  For a fixed listing, required-date set, date
format and reference instant, every entry of the result map computed with a
smaller lookback window appears unchanged in the result map computed with a
larger one (the required-date set is duplicate-free, being a JS Set). -/
theorem getReports_lookback_mono (today d1 d2 : Int) (fmt : Int → String)
    (l : List ReportRecord) (req : List String) (m1 r1 m2 r2 : _)
    (hd : d1 ≤ d2) (hnd : req.Nodup)
    (h1 : getReports today d1 fmt l req = Except.ok (m1, r1))
    (h2 : getReports today d2 fmt l req = Except.ok (m2, r2)) :
    ∀ p ∈ m1, p ∈ m2 := by
  intro p hp
  unfold getReports at h1 h2
  cases he : l.isEmpty with
  | true => rw [he] at h1; exact absurd h1 (by simp)
  | false =>
    rw [he] at h1 h2
    simp only [Bool.false_eq_true, if_false, Except.ok.injEq, Prod.mk.injEq] at h1 h2
    have hm1 : m1 = (scanLoop today d1 fmt l (initState req)).1.reports := h1.1.symm
    have hm2 : m2 = (scanLoop today d2 fmt l (initState req)).1.reports := h2.1.symm
    subst hm1 hm2
    exact scanLoop_lookback_mono today d1 d2 fmt l (initState req) hd
      ⟨hnd, by intro q hq; simp [initState] at hq⟩ p hp

/-- Witness for C4: windows of 1 and 7 days around a two-record listing. -/
theorem getReports_lookback_mono_witness :
    ("d1", (⟨"u1", "f1"⟩ : ReportFile)) ∈
      [("d1", (⟨"u1", "f1"⟩ : ReportFile)), ("d2", (⟨"u2", "f2"⟩ : ReportFile))] :=
  getReports_lookback_mono 864000000 1 7 (fun ts => if ts = 777600000 then "d1" else "d2")
    [⟨"DONE", 777600000, "u1", "f1"⟩, ⟨"DONE", 691200000, "u2", "f2"⟩] ["d1", "d2"]
    [("d1", ⟨"u1", "f1"⟩), ("d2", ⟨"u2", "f2"⟩)] []
    [("d1", ⟨"u1", "f1"⟩), ("d2", ⟨"u2", "f2"⟩)] []
    (by norm_num) (by decide) rfl rfl ("d1", ⟨"u1", "f1"⟩) (by decide)

/-! ## getReports: required-set mutation -/

/-- Relation between the initial required-date set and the running scan
state: the set stays duplicate-free, only shrinks, and a date has left the
set exactly when a map entry was recorded under it. -/
def MutInv (req0 : List String) (st : ScanState) : Prop :=
  st.required.Nodup ∧ (∀ d ∈ st.required, d ∈ req0) ∧
    ∀ d, (d ∈ req0 ∧ d ∉ st.required) ↔ ∃ v, (d, v) ∈ st.reports

/-- One loop-body step preserves the mutation invariant. -/
theorem processRecord_mutInv (req0 : List String) (fmt : Int → String)
    (r : ReportRecord) (st : ScanState) (h : MutInv req0 st) :
    MutInv req0 (processRecord fmt r st) := by
  obtain ⟨hnd, hsub, hiff⟩ := h
  unfold processRecord
  split
  · set date := fmt r.endTimeMs with hdate
    by_cases hc : st.required.contains date
    · rw [if_pos hc]
      have hcm : date ∈ st.required := by simpa using hc
      have hfresh : ∀ q ∈ st.reports, q.1 ≠ date := by
        intro q hq hqd
        have : ∃ v, (q.1, v) ∈ st.reports := ⟨q.2, by simpa using hq⟩
        exact ((hiff q.1).mpr this).2 (hqd ▸ hcm)
      rw [putEntry_eq_append st.reports date _ hfresh]
      refine ⟨hnd.erase date, ?_, ?_⟩
      · intro d hd
        exact hsub d (List.mem_of_mem_erase hd)
      · intro d
        by_cases hdd : d = date
        · subst hdd
          constructor
          · intro _
            exact ⟨⟨r.storagePath, r.reportId⟩, List.mem_append_right _ (by simp)⟩
          · intro _
            refine ⟨hsub _ hcm, ?_⟩
            intro hmem
            exact (hnd.mem_erase_iff.mp hmem).1 rfl
        · constructor
          · intro ⟨hd0, hde⟩
            have hdn : d ∉ st.required := by
              intro hdr
              exact hde (hnd.mem_erase_iff.mpr ⟨hdd, hdr⟩)
            obtain ⟨v, hv⟩ := (hiff d).mp ⟨hd0, hdn⟩
            exact ⟨v, List.mem_append_left _ hv⟩
          · intro ⟨v, hv⟩
            rcases List.mem_append.mp hv with hv | hv
            · obtain ⟨hd0, hdn⟩ := (hiff d).mpr ⟨v, hv⟩
              exact ⟨hd0, fun hmem => hdn (List.mem_of_mem_erase hmem)⟩
            · have heq : (d, v) = (date, ⟨r.storagePath, r.reportId⟩) :=
                List.mem_singleton.mp hv
              exact absurd (congrArg Prod.fst heq) hdd
    · rw [if_neg hc]
      exact ⟨hnd, hsub, hiff⟩
  · exact ⟨hnd, hsub, hiff⟩

/-- Membership in a JS object after one assignment. -/
theorem putEntry_mem {m : List (String × ReportFile)} {k : String} {v : ReportFile}
    {p : String × ReportFile} (hp : p ∈ putEntry m k v) : p ∈ m ∨ p = (k, v) := by
  induction m with
  | nil => simpa [putEntry] using hp
  | cons q m ih =>
    obtain ⟨k2, v2⟩ := q
    simp only [putEntry] at hp
    by_cases hk : k2 = k
    · rw [if_pos hk] at hp
      rcases List.mem_cons.mp hp with hp | hp
      · exact Or.inr hp
      · exact Or.inl (List.mem_cons_of_mem _ hp)
    · rw [if_neg hk] at hp
      rcases List.mem_cons.mp hp with hp | hp
      · exact Or.inl (hp ▸ List.mem_cons_self _ _)
      · rcases ih hp with hp | hp
        · exact Or.inl (List.mem_cons_of_mem _ hp)
        · exact Or.inr hp

/-- Each map entry added by one step comes from the record just processed. -/
theorem processRecord_prov (fmt : Int → String) (r : ReportRecord) (st : ScanState)
    (p : String × ReportFile) (hp : p ∈ (processRecord fmt r st).reports) :
    p ∈ st.reports ∨
      (r.state = "DONE" ∧ p = (fmt r.endTimeMs, ⟨r.storagePath, r.reportId⟩)) := by
  unfold processRecord at hp
  by_cases hst : r.state = "DONE"
  · rw [if_pos hst] at hp
    by_cases hc : st.required.contains (fmt r.endTimeMs)
    · rw [if_pos hc] at hp
      simp only at hp
      rcases putEntry_mem hp with hp | hp
      · exact Or.inl hp
      · exact Or.inr ⟨hst, hp⟩
    · rw [if_neg hc] at hp
      exact Or.inl hp
  · rw [if_neg hst] at hp
    exact Or.inl hp

/-- The scan preserves the mutation invariant. -/
theorem scanLoop_mutInv (req0 : List String) (today lb : Int) (fmt : Int → String)
    (l : List ReportRecord) (st : ScanState) (h : MutInv req0 st) :
    MutInv req0 (scanLoop today lb fmt l st).1 := by
  induction l generalizing st with
  | nil => exact h
  | cons r rs ih =>
    simp only [scanLoop]
    cases hs : stopCheck today lb (processRecord fmt r st) with
    | true => simpa using processRecord_mutInv req0 fmt r st h
    | false =>
      simp only [hs, Bool.false_eq_true, if_false]
      exact ih _ (processRecord_mutInv req0 fmt r st h)

/-- Every map entry the scan produces comes from a DONE record of the list
scanned (or was present before the scan started). -/
theorem scanLoop_prov (today lb : Int) (fmt : Int → String) (l : List ReportRecord)
    (st : ScanState) (p : String × ReportFile)
    (hp : p ∈ (scanLoop today lb fmt l st).1.reports) :
    p ∈ st.reports ∨
      ∃ r ∈ l, r.state = "DONE" ∧ p = (fmt r.endTimeMs, ⟨r.storagePath, r.reportId⟩) := by
  induction l generalizing st with
  | nil => exact Or.inl hp
  | cons r rs ih =>
    simp only [scanLoop] at hp
    cases hs : stopCheck today lb (processRecord fmt r st) with
    | true =>
      rw [hs] at hp
      simp only [if_true] at hp
      rcases processRecord_prov fmt r st p hp with hp | ⟨hst, hpe⟩
      · exact Or.inl hp
      · exact Or.inr ⟨r, List.mem_cons_self r rs, hst, hpe⟩
    | false =>
      rw [hs] at hp
      simp only [Bool.false_eq_true, if_false] at hp
      rcases ih _ hp with hp2 | ⟨r2, hr2, hst2, hpe2⟩
      · rcases processRecord_prov fmt r st p hp2 with hp3 | ⟨hst, hpe⟩
        · exact Or.inl hp3
        · exact Or.inr ⟨r, List.mem_cons_self r rs, hst, hpe⟩
      · exact Or.inr ⟨r2, List.mem_cons_of_mem _ hr2, hst2, hpe2⟩

/-- C8: getReports mutates the callers required-date set exactly as matches
are recorded: a date has been removed from the (duplicate-free) set iff it
is a key of the returned result map; dates still in the returned set all
come from the original set (nothing is added); and every map entry carries
the {url, file} pair of a DONE record of the listing whose formatted
data-end date is that key. -/
theorem getReports_set_mutation (today lb : Int) (fmt : Int → String)
    (l : List ReportRecord) (req : List String) (m : List (String × ReportFile))
    (rq : List String) (hnd : req.Nodup)
    (h : getReports today lb fmt l req = Except.ok (m, rq)) :
    (∀ d, (d ∈ req ∧ d ∉ rq) ↔ ∃ v, (d, v) ∈ m) ∧
    (∀ d ∈ rq, d ∈ req) ∧
    (∀ d v, (d, v) ∈ m →
      ∃ r ∈ l, r.state = "DONE" ∧ fmt r.endTimeMs = d ∧
        v = ReportFile.mk r.storagePath r.reportId) := by
  unfold getReports at h
  cases he : l.isEmpty with
  | true => rw [he] at h; exact absurd h (by simp)
  | false =>
    rw [he] at h
    simp only [Bool.false_eq_true, if_false, Except.ok.injEq, Prod.mk.injEq] at h
    have hm : m = (scanLoop today lb fmt l (initState req)).1.reports := h.1.symm
    have hq : rq = (scanLoop today lb fmt l (initState req)).1.required := h.2.symm
    subst hm hq
    have hinv0 : MutInv req (initState req) := by
      refine ⟨hnd, fun d hd => hd, fun d => ?_⟩
      simp [initState]
    have hinv := scanLoop_mutInv req today lb fmt l (initState req) hinv0
    refine ⟨hinv.2.2, hinv.2.1, ?_⟩
    intro d v hp
    rcases scanLoop_prov today lb fmt l (initState req) (d, v) hp with hp | ⟨r, hr, hst, hpe⟩
    · simp [initState] at hp
    · have hd : fmt r.endTimeMs = d := (congrArg Prod.fst hpe).symm
      have hv : v = ReportFile.mk r.storagePath r.reportId := congrArg Prod.snd hpe
      exact ⟨r, hr, hst, hd, hv⟩

/-- Witness for C8: one matched and one unmatched required date. -/
theorem getReports_set_mutation_witness :
    (("d1" ∈ ["d1", "dx"] ∧ "d1" ∉ ["dx"]) ↔
      ∃ v, ("d1", v) ∈ [("d1", ReportFile.mk "u1" "f1")]) ∧
    ("dx" ∈ ["dx"] → "dx" ∈ ["d1", "dx"]) :=
  have h := getReports_set_mutation 864000000 7
    (fun ts => if ts = 777600000 then "d1" else "d2")
    [⟨"DONE", 777600000, "u1", "f1"⟩] ["d1", "dx"]
    [("d1", ⟨"u1", "f1"⟩)] ["dx"] (by decide) rfl
  ⟨h.1 "d1", h.2.1 "dx"⟩

/-! ## CSVExtractor: classifier ordering -/

/-- Recognizer for the field-name event. -/
def isFields : Ev → Bool
  | .fields _ => true
  | _ => false

/-- Recognizer for the data-line event. -/
def isLine : Ev → Bool
  | .line _ => true
  | _ => false

/-- One event list per chunk. -/
theorem runC_length (st : CState) (l : List String) : (runC st l).length = l.length := by
  induction l generalizing st with
  | nil => rfl
  | cons c cs ih => simp [runC, ih]

/-- Events over a concatenation of chunk sequences. -/
theorem runC_append (st : CState) (l1 l2 : List String) :
    runC st (l1 ++ l2) = runC st l1 ++ runC (endState st l1) l2 := by
  induction l1 generalizing st with
  | nil => rfl
  | cons c cs ih =>
    show (stepC st c).2 :: runC (stepC st c).1 (cs ++ l2) =
      ((stepC st c).2 :: runC (stepC st c).1 cs) ++ runC (endState st (c :: cs)) l2
    rw [ih (stepC st c).1, List.cons_append]
    rfl

/-- Once past the header state, a step stays past the header state. -/
theorem stepC_notHeader (st : CState) (c : String)
    (h : (st.csvFound || st.summaryFound) = true) :
    ((stepC st c).1.csvFound || (stepC st c).1.summaryFound) = true := by
  obtain ⟨cf, sf⟩ := st
  cases cf <;> cases sf <;> simp_all [stepC] <;> split <;> simp

/-- Past the header state, a step never emits a field-name event. -/
theorem stepC_no_fields (st : CState) (c : String)
    (h : (st.csvFound || st.summaryFound) = true) :
    ∀ e ∈ (stepC st c).2, isFields e = false := by
  intro e he
  obtain ⟨cf, sf⟩ := st
  cases cf <;> cases sf <;> simp_all [stepC]
  · subst he; rfl
  · split at he <;> simp_all
    subst he; rfl
  · split at he <;> simp_all
    subst he; rfl

/-- Past the header state, no field-name event is ever emitted again. -/
theorem runC_no_fields (l : List String) : ∀ st, (st.csvFound || st.summaryFound) = true →
    ∀ evs ∈ runC st l, ∀ e ∈ evs, isFields e = false := by
  induction l with
  | nil => intro st _ evs hevs; simp [runC] at hevs
  | cons c cs ih =>
    intro st h evs hevs e he
    simp only [runC, List.mem_cons] at hevs
    rcases hevs with rfl | hevs
    · exact stepC_no_fields st c h e he
    · exact ih _ (stepC_notHeader st c h) evs hevs e he

/-- In the summary state every chunk produces exactly the end-of-stream
signal and the state never changes. -/
theorem runC_summary (l : List String) :
    runC ⟨false, true⟩ l = List.replicate l.length [Ev.eos] := by
  induction l with
  | nil => rfl
  | cons c cs ih => simp [runC, stepC, ih, List.replicate]

/-- The summary state is absorbing along the state trace. -/
theorem stateTrace_summary (cs : List String) :
    stateTrace ⟨false, true⟩ cs = List.replicate (cs.length + 1) ⟨false, true⟩ := by
  induction cs with
  | nil => rfl
  | cons c cs ih => simp [stateTrace, stepC, ih, List.replicate_succ]

/-- From the data state the trace is a block of data states followed by a
block of summary states. -/
theorem stateTrace_data (cs : List String) :
    ∃ a b, stateTrace ⟨true, false⟩ cs =
        List.replicate a ⟨true, false⟩ ++ List.replicate b ⟨false, true⟩ ∧
      a + b = cs.length + 1 ∧ 1 ≤ a := by
  induction cs with
  | nil => exact ⟨1, 0, rfl, rfl, le_refl 1⟩
  | cons c cs ih =>
    cases hb : isBoundary c with
    | true =>
      refine ⟨1, cs.length + 1, ?_, by simp only [List.length_cons]; omega, le_refl 1⟩
      have hstep : (stepC ⟨true, false⟩ c).1 = (⟨false, true⟩ : CState) := by
        simp [stepC, hb]
      simp only [stateTrace]
      rw [hstep, stateTrace_summary]
      rfl
    | false =>
      obtain ⟨a, b, heq, hab, ha⟩ := ih
      refine ⟨a + 1, b, ?_, by simp only [List.length_cons]; omega, by omega⟩
      have hstep : (stepC ⟨true, false⟩ c).1 = (⟨true, false⟩ : CState) := by
        simp [stepC, hb]
      simp only [stateTrace]
      rw [hstep, heq, List.replicate_succ, List.cons_append]

/-- From the data or summary state, the scan stays in the data or summary
state. -/
theorem endState_ds (l : List String) : ∀ st : CState,
    (st = ⟨true, false⟩ ∨ st = ⟨false, true⟩) →
    (endState st l = ⟨true, false⟩ ∨ endState st l = ⟨false, true⟩) := by
  induction l with
  | nil => intro st h; exact h
  | cons c cs ih =>
    intro st h
    have hstep : ((stepC st c).1 = ⟨true, false⟩ ∨ (stepC st c).1 = ⟨false, true⟩) := by
      rcases h with rfl | rfl
      · cases hb : isBoundary c with
        | true => exact Or.inr (by simp [stepC, hb])
        | false => exact Or.inl (by simp [stepC, hb])
      · exact Or.inr rfl
    exact ih _ hstep

/-- After a boundary chunk seen in the data or summary region, every later
chunk produces only end-of-stream events. -/
theorem runC_after_boundary (pre : List String) (mid : String) (post : List String)
    (hb : isBoundary mid = true) :
    ∀ evs ∈ (runC ⟨true, false⟩ (pre ++ mid :: post)).drop (pre.length + 1),
      ∀ e ∈ evs, isLine e = false := by
  intro evs hevs e he
  rw [runC_append] at hevs
  have hlen : (runC ⟨true, false⟩ pre).length = pre.length := runC_length _ _
  rw [show pre.length + 1 = (runC ⟨true, false⟩ pre).length + 1 by rw [hlen]] at hevs
  rw [List.drop_append] at hevs
  have hsum : (stepC (endState ⟨true, false⟩ pre) mid).1 = (⟨false, true⟩ : CState) := by
    rcases endState_ds pre ⟨true, false⟩ (Or.inl rfl) with hst | hst <;> rw [hst]
    · simp [stepC, hb]
    · rfl
  simp only [runC, List.drop_one, List.tail_cons, hsum, runC_summary] at hevs
  rcases List.eq_of_mem_replicate hevs with rfl
  simp at he
  subst he
  rfl

/-- C2 (amended): over any chunk sequence fed to _transform, (i) the first
chunk produces exactly the field-name event and the remaining chunks are
processed from the data state, (ii) no later chunk ever produces a
field-name event — so it occurs exactly once and strictly before any
data-line event, (iii) once a blank or comma-prefixed chunk is seen in the
data or summary region (that is, anywhere after the header chunk), no
data-line event follows it, and (iv) the state trace is the header state
followed by a nonempty block of data states and then a block of summary
states: HEADER→DATA happens exactly once, DATA→SUMMARY at most once, and no
transition afterward.  (The original claim also forbade data lines after a
blank or comma-prefixed *first* chunk; that is false — such a chunk is
consumed as the header — see the counterexample below.) -/
theorem csvExtractor_classifier (c : String) (cs : List String) :
    chunkEvents (c :: cs) =
        [Ev.fields ((splitFields c.data).map fun l => ⟨l⟩)] :: runC ⟨true, false⟩ cs ∧
    (∀ evs ∈ runC ⟨true, false⟩ cs, ∀ e ∈ evs, isFields e = false) ∧
    (∀ pre mid post, cs = pre ++ mid :: post → isBoundary mid = true →
      ∀ evs ∈ (runC ⟨true, false⟩ cs).drop (pre.length + 1), ∀ e ∈ evs, isLine e = false) ∧
    (∃ a b, stateTrace ⟨false, false⟩ (c :: cs) =
        ⟨false, false⟩ :: (List.replicate a ⟨true, false⟩ ++ List.replicate b ⟨false, true⟩) ∧
      a + b = cs.length + 1 ∧ 1 ≤ a) := by
  refine ⟨rfl, runC_no_fields cs ⟨true, false⟩ rfl, ?_, ?_⟩
  · intro pre mid post hcs hb
    subst hcs
    exact runC_after_boundary pre mid post hb
  · obtain ⟨a, b, heq, hab, ha⟩ := stateTrace_data cs
    refine ⟨a, b, ?_, hab, ha⟩
    show (⟨false, false⟩ : CState) :: stateTrace (stepC ⟨false, false⟩ c).1 cs = _
    rw [show (stepC ⟨false, false⟩ c).1 = (⟨true, false⟩ : CState) from rfl, heq]

/-- Witness for the amended C2 on a concrete stream: header, one data
chunk, a blank boundary, one trailing chunk. -/
theorem csvExtractor_classifier_witness :
    chunkEvents ["h", "a", "", "x"] = [[Ev.fields ["h"]], [Ev.line "a"], [], [Ev.eos]] := by
  have h := (csvExtractor_classifier "h" ["a", "", "x"]).1
  rw [h]
  rfl

/-- C2 counterexample: a blank first chunk is consumed as the header (the
classifier is still in the header state), so a data-line event is emitted
for the following chunk even though an empty chunk has already been seen —
contradicting the claim that no data-line event occurs after a blank chunk. -/
theorem csvExtractor_blank_then_line :
    isBoundary "" = true ∧ chunkEvents ["", "a"] = [[Ev.fields [""]], [Ev.line "a"]] := by
  constructor
  · rfl
  · rfl

/-! ## GCS_URL_PATTERN: soundness and completeness of the matcher -/

/-- Interleave captured segments with the pattern literals, then append the
remaining input: the shape of any successful match. -/
def joinInter : List (List Char) → List (List Char) → List Char → List Char
  | s :: segs, lit :: lits, rem => s ++ lit ++ joinInter segs lits rem
  | _, _, rem => rem

/-- A matched literal was the front of the input. -/
theorem stripLit_sound (lit : List Char) : ∀ l rest : List Char,
    stripLit lit l = some rest → l = lit ++ rest := by
  induction lit with
  | nil =>
    intro l rest h
    simpa [stripLit] using h
  | cons c cs ih =>
    intro l rest h
    cases l with
    | nil => simp [stripLit] at h
    | cons x xs =>
      simp only [stripLit] at h
      by_cases hx : x = c
      · rw [if_pos hx] at h
        rw [hx, List.cons_append]
        exact congrArg _ (ih xs rest h)
      · rw [if_neg hx] at h
        exact absurd h (by simp)

/-- A literal strips off itself. -/
theorem stripLit_self (lit : List Char) : ∀ rest : List Char,
    stripLit lit (lit ++ rest) = some rest := by
  induction lit with
  | nil => intro rest; rfl
  | cons c cs ih =>
    intro rest
    simp only [List.cons_append, stripLit, if_pos rfl]
    exact ih rest

/-- A successful backtracking search comes from some candidate length. -/
theorem tryDown_some {α : Type} (k : Nat → Option α) : ∀ n r, tryDown k n = some r →
    ∃ i ≤ n, k i = some r := by
  intro n
  induction n with
  | zero => exact fun r h => ⟨0, le_refl 0, h⟩
  | succ n ih =>
    intro r h
    unfold tryDown at h
    cases hk : k (n + 1) with
    | some r2 =>
      rw [hk] at h
      exact ⟨n + 1, le_refl _, hk.trans h⟩
    | none =>
      rw [hk] at h
      obtain ⟨i, hi, hki⟩ := ih r h
      exact ⟨i, Nat.le_succ_of_le hi, hki⟩

/-- The backtracking search succeeds whenever some candidate length works. -/
theorem tryDown_isSome {α : Type} (k : Nat → Option α) : ∀ n i, i ≤ n →
    (k i).isSome = true → (tryDown k n).isSome = true := by
  intro n
  induction n with
  | zero =>
    intro i hi hk
    have h0 : i = 0 := Nat.le_zero.mp hi
    subst h0
    exact hk
  | succ n ih =>
    intro i hi hk
    unfold tryDown
    cases hkn : k (n + 1) with
    | some r => simp
    | none =>
      rcases Nat.lt_or_ge i (n + 1) with hlt | hge
      · exact ih i (Nat.lt_succ_iff.mp hlt) hk
      · have hieq : i = n + 1 := Nat.le_antisymm hi hge
        subst hieq
        rw [hkn] at hk
        simp at hk

/-- A prefix within the dot run is free of line terminators. -/
theorem dotRun_take : ∀ (l : List Char) (i : Nat), i ≤ dotRun l → DotFreeL (l.take i) := by
  intro l
  induction l with
  | nil => intro i _; simp [DotFreeL]
  | cons c rest ih =>
    intro i hi
    cases i with
    | zero => simp [DotFreeL]
    | succ i =>
      unfold dotRun at hi
      cases hc : isDotChar c with
      | false => rw [hc] at hi; simp at hi
      | true =>
        rw [hc] at hi
        simp only [if_true] at hi
        intro x hx
        simp only [List.take_succ_cons, List.mem_cons] at hx
        rcases hx with rfl | hx
        · exact hc
        · exact ih i (Nat.succ_le_succ_iff.mp hi) x hx

/-- A line-terminator-free prefix fits inside the dot run. -/
theorem dotFree_le_dotRun (s : List Char) (t : List Char) (h : DotFreeL s) :
    s.length ≤ dotRun (s ++ t) := by
  induction s with
  | nil => simp
  | cons c cs ih =>
    simp only [List.cons_append, dotRun, List.length_cons]
    rw [h c (List.mem_cons_self c cs)]
    simp only [if_true]
    exact Nat.succ_le_succ (ih fun x hx => h x (List.mem_cons_of_mem _ hx))

/-- Soundness of the segment matcher: a success decomposes the input into
line-terminator-free captured segments interleaved with the literals. -/
theorem matchSegs_sound : ∀ (lits : List (List Char)) (l : List Char)
    (segs : List (List Char)) (rem : List Char),
    matchSegs lits l = some (segs, rem) →
    segs.length = lits.length ∧ (∀ s ∈ segs, DotFreeL s) ∧ l = joinInter segs lits rem := by
  intro lits
  induction lits with
  | nil =>
    intro l segs rem h
    simp only [matchSegs, Option.some.injEq, Prod.mk.injEq] at h
    obtain ⟨rfl, rfl⟩ := h
    exact ⟨rfl, by simp, rfl⟩
  | cons lit lits ih =>
    intro l segs rem h
    obtain ⟨i, hi, hki⟩ := tryDown_some _ _ _ h
    cases hs : stripLit lit (l.drop i) with
    | none => rw [hs] at hki; exact absurd hki (by simp)
    | some rest =>
      rw [hs] at hki
      simp only [] at hki
      cases hm : matchSegs lits rest with
      | none => rw [hm] at hki; exact absurd hki (by simp)
      | some pr =>
        obtain ⟨segs2, rem2⟩ := pr
        rw [hm] at hki
        simp only [Option.some.injEq, Prod.mk.injEq] at hki
        obtain ⟨hseg, hrem⟩ := hki
        subst hseg hrem
        obtain ⟨hlen, hdf, hjoin⟩ := ih rest segs2 rem2 hm
        have hltake := dotRun_take l i hi
        refine ⟨by simp [hlen], ?_, ?_⟩
        · intro s hsm
          rcases List.mem_cons.mp hsm with rfl | hsm
          · exact hltake
          · exact hdf s hsm
        · have hstrip := stripLit_sound lit (l.drop i) rest hs
          calc l = l.take i ++ l.drop i := (List.take_append_drop i l).symm
            _ = l.take i ++ (lit ++ rest) := by rw [hstrip]
            _ = joinInter (l.take i :: segs2) (lit :: lits) rem2 := by
                rw [hjoin]
                simp [joinInter, List.append_assoc]

/-- Completeness of the segment matcher: any decomposition into
line-terminator-free segments is found. -/
theorem matchSegs_complete : ∀ (lits segs : List (List Char)) (rem : List Char),
    segs.length = lits.length → (∀ s ∈ segs, DotFreeL s) →
    (matchSegs lits (joinInter segs lits rem)).isSome = true := by
  intro lits
  induction lits with
  | nil => intro segs rem _ _; simp [matchSegs, joinInter]
  | cons lit lits ih =>
    intro segs rem hlen hdf
    cases segs with
    | nil => simp at hlen
    | cons s segs2 =>
      simp only [List.length_cons, Nat.succ.injEq] at hlen
      have hdfs : DotFreeL s := hdf s (List.mem_cons_self s segs2)
      have hshape : joinInter (s :: segs2) (lit :: lits) rem =
          s ++ (lit ++ joinInter segs2 lits rem) := by
        simp [joinInter, List.append_assoc]
      unfold matchSegs
      refine tryDown_isSome _ _ s.length ?_ ?_
      · rw [hshape]
        exact dotFree_le_dotRun s _ hdfs
      · have hdrop : (joinInter (s :: segs2) (lit :: lits) rem).drop s.length =
            lit ++ joinInter segs2 lits rem := by
          rw [hshape]
          exact List.drop_left s _
        simp only [hdrop, stripLit_self]
        cases hm : matchSegs lits (joinInter segs2 lits rem) with
        | none =>
          have hih := ih segs2 rem hlen fun x hx => hdf x (List.mem_cons_of_mem _ hx)
          rw [hm] at hih
          simp at hih
        | some pr =>
          obtain ⟨sg, rm⟩ := pr
          simp [hm]

/-- exec soundness: a successful exec is a pattern match at some start
position. -/
theorem gcsExecAux_sound : ∀ (l : List Char) (segs : List (List Char)) (rem : List Char),
    gcsExecAux l = some (segs, rem) →
    ∃ n, matchSegs gcsLits (l.drop n) = some (segs, rem) := by
  intro l
  induction l with
  | nil => intro segs rem h; exact ⟨0, h⟩
  | cons c rest ih =>
    intro segs rem h
    unfold gcsExecAux at h
    cases hm : matchSegs gcsLits (c :: rest) with
    | some r => rw [hm] at h; exact ⟨0, hm.trans h⟩
    | none =>
      rw [hm] at h
      obtain ⟨n, hn⟩ := ih segs rem h
      exact ⟨n + 1, hn⟩

/-- exec completeness: a pattern match at any suffix makes exec succeed. -/
theorem gcsExecAux_complete : ∀ (w rest : List Char),
    (matchSegs gcsLits rest).isSome = true → (gcsExecAux (w ++ rest)).isSome = true := by
  intro w
  induction w with
  | nil =>
    intro rest h
    cases rest with
    | nil => exact h
    | cons c cs =>
      show (gcsExecAux (c :: cs)).isSome = true
      unfold gcsExecAux
      cases hm : matchSegs gcsLits (c :: cs) with
      | some r => simp
      | none => rw [hm] at h; simp at h
  | cons x xs ih =>
    intro rest h
    show (gcsExecAux (x :: (xs ++ rest))).isSome = true
    unfold gcsExecAux
    cases hm : matchSegs gcsLits (x :: (xs ++ rest)) with
    | some r => simp
    | none =>
      simp only [hm]
      exact ih rest h

/-- A six-element capture list destructures. -/
theorem segs_six (segs : List (List Char)) (h : segs.length = 6) :
    ∃ s0 s1 s2 s3 s4 s5, segs = [s0, s1, s2, s3, s4, s5] := by
  rcases segs with _ | ⟨s0, _ | ⟨s1, _ | ⟨s2, _ | ⟨s3, _ | ⟨s4, _ | ⟨s5, _ | ⟨s6, t⟩⟩⟩⟩⟩⟩⟩
  · simp at h
  · simp at h
  · simp at h
  · simp at h
  · simp at h
  · simp at h
  · exact ⟨s0, s1, s2, s3, s4, s5, rfl⟩
  · simp only [List.length_cons] at h
    omega

/-- The matcher succeeds exactly on URLs of the declarative seven-segment
shape; the filename group is its second capture. -/
theorem gcsMatch_iff (l : List Char) : (∃ f, gcsMatch l = some f) ↔ MatchesGcs l := by
  constructor
  · rintro ⟨f, hf⟩
    unfold gcsMatch at hf
    cases he : gcsExecAux l with
    | none => rw [he] at hf; exact absurd hf (by simp)
    | some pr =>
      obtain ⟨segs, rem⟩ := pr
      obtain ⟨n, hn⟩ := gcsExecAux_sound l segs rem he
      obtain ⟨hlen, hdf, hjoin⟩ := matchSegs_sound gcsLits (l.drop n) segs rem hn
      obtain ⟨s0, s1, s2, s3, s4, s5, rfl⟩ := segs_six segs (by simpa [gcsLits] using hlen)
      refine ⟨l.take n ++ s0, s1, s2, s3, s4, s5, rem,
        hdf s1 (by simp), hdf s2 (by simp), hdf s3 (by simp), hdf s4 (by simp),
        hdf s5 (by simp), ?_⟩
      conv_lhs => rw [← List.take_append_drop n l]
      rw [hjoin]
      simp [joinInter, gcsLits, List.append_assoc]
  · rintro ⟨w, f, a, b, c, d, t, hf, ha, hb, hc, hd, heq⟩
    have hjoin : joinInter [[], f, a, b, c, d] gcsLits t =
        '/' :: (f ++ '_' :: (a ++ '_' :: (b ++ '_' :: (c ++ '_' ::
          (d ++ ('.' :: 'c' :: 's' :: 'v' :: '?' :: t)))))) := by
      simp [joinInter, gcsLits, List.append_assoc]
    have hdfall : ∀ s ∈ [[], f, a, b, c, d], DotFreeL s := by
      intro s hs
      simp only [List.mem_cons, List.not_mem_nil, or_false] at hs
      rcases hs with rfl | rfl | rfl | rfl | rfl | rfl
      · intro x hx; simp at hx
      · exact hf
      · exact ha
      · exact hb
      · exact hc
      · exact hd
    have hms : (matchSegs gcsLits (joinInter [[], f, a, b, c, d] gcsLits t)).isSome = true :=
      matchSegs_complete gcsLits [[], f, a, b, c, d] t (by simp [gcsLits]) hdfall
    rw [hjoin] at hms
    have hex : (gcsExecAux l).isSome = true := by
      rw [heq]
      exact gcsExecAux_complete w _ hms
    cases he : gcsExecAux l with
    | none => rw [he] at hex; simp at hex
    | some pr =>
      obtain ⟨segs, rem⟩ := pr
      obtain ⟨n, hn⟩ := gcsExecAux_sound l segs rem he
      obtain ⟨hlen, -, -⟩ := matchSegs_sound gcsLits (l.drop n) segs rem hn
      obtain ⟨s0, s1, s2, s3, s4, s5, rfl⟩ := segs_six segs (by simpa [gcsLits] using hlen)
      refine ⟨s1, ?_⟩
      unfold gcsMatch
      rw [he]
      rfl

/-- C9 (amended): a URL matches GCS_URL_PATTERN exactly when it has the
declarative seven-segment shape; for a matching URL extractFilename returns
the captured filename group when that group is nonempty, but throws the
same descriptive error both for URLs that do not match the pattern and for
matching URLs whose filename segment is empty (the empty string is falsy in
the !match.groups.filename guard — the counterexample below shows such a
matching URL).  Errors are returned, never swallowed. -/
theorem extractFilename_spec (url : List Char) :
    (MatchesGcs url ↔ ∃ f, gcsMatch url = some f) ∧
    (∀ f, gcsMatch url = some f → f ≠ [] →
      extractFilename ⟨url⟩ = Except.ok ⟨f⟩) ∧
    (∀ f, gcsMatch url = some f → f = [] →
      extractFilename ⟨url⟩ = Except.error "Unable to extract filename from URL.") ∧
    (gcsMatch url = none →
      extractFilename ⟨url⟩ = Except.error "Unable to extract filename from URL.") := by
  refine ⟨(gcsMatch_iff url).symm, ?_, ?_, ?_⟩
  · intro f hf hne
    unfold extractFilename
    rw [show (String.mk url).data = url from rfl, hf]
    simp only []
    rw [if_neg ?_]
    intro hemp
    exact hne (List.isEmpty_iff.mp hemp)
  · intro f hf hemp
    subst hemp
    unfold extractFilename
    rw [show (String.mk url).data = url from rfl, hf]
    rfl
  · intro hf
    unfold extractFilename
    rw [show (String.mk url).data = url from rfl, hf]

/-- Witness for C9 at a well-formed URL: the filename group is captured and
returned. -/
theorem extractFilename_spec_witness :
    extractFilename "x/f_a_b_c_d.csv?q" = Except.ok "f" :=
  (extractFilename_spec "x/f_a_b_c_d.csv?q".data).2.1 "f".data rfl (by decide)

/-- C9 counterexample: the URL /_a_b_c_d.csv?e matches the seven-segment
pattern (with empty prefix and empty filename segment), yet extractFilename
throws instead of returning the matched filename segment: the empty capture
fails the falsy guard. -/
theorem extractFilename_matching_url_throws :
    MatchesGcs "/_a_b_c_d.csv?e".data ∧
      extractFilename "/_a_b_c_d.csv?e" =
        Except.error "Unable to extract filename from URL." := by
  constructor
  · exact ⟨[], [], ['a'], ['b'], ['c'], ['d'], ['e'],
      by unfold DotFreeL; decide, by unfold DotFreeL; decide, by unfold DotFreeL; decide,
      by unfold DotFreeL; decide, by unfold DotFreeL; decide, by decide⟩
  · rfl
